import Mathlib

set_option linter.unusedVariables false

/-!
Shallow embedding of the Daubechies-wavelet grid construction
(`DbWaveletGrid::setupGrid`, `setupMatrices`, `calcIntegerValues`,
`getEigenvector`, `cascade`, `fillGridFromMaps` of the VES module).
Real arithmetic is modelled over `ℚ`: the properties under study are
structural (key sets, written index sets, control flow, matrix entry
placement), not floating-point rounding behaviour.  External collaborators
(the filter-coefficient table and the LAPACK `dgesdd` routine) are passed in
as parameters, matching their specification boundary.
-/

/-- Binary address: the C++ `std::string` over characters `'0'`/`'1'`;
the head of the list is the first (most significant) character. -/
abbrev Bits := List Bool

/-- Decimal value of a binary address, as computed by
`std::stoi(key, nullptr, 2)`. -/
def dec (b : Bits) : ℕ :=
  b.foldl (fun a c => 2 * a + cond c 1 0) 0

/-- Dense matrix (`PLMD::Matrix<double>`) as a list of rows. -/
abbrev Mat := List (List ℚ)

/-- Dot product of two vectors (shorter length wins, as in a bounded loop). -/
def dotprod (xs ys : List ℚ) : ℚ :=
  (List.zipWith (fun x y => x * y) xs ys).sum

/-- Matrix–vector product `mult(A, v, out)` of `tools/Matrix.h`:
`out[i] = Σ_j A(i,j)·v[j]`. -/
def mult (M : Mat) (v : List ℚ) : List ℚ :=
  M.map (fun row => dotprod row v)

/-- Scalar multiplication `M *= c`: every element multiplied by `c`. -/
def scaleMat (c : ℚ) (M : Mat) : Mat :=
  M.map (fun row => row.map (fun x => c * x))

/-- Element read `M[i][j]` (default 0 outside the stored rectangle). -/
def matGet (M : Mat) (i j : ℕ) : ℚ :=
  (M.getD i []).getD j 0

/-- Element write `M[i][j] = x` (no-op outside the stored rectangle). -/
def matSet (M : Mat) (i j : ℕ) (x : ℚ) : Mat :=
  M.set i ((M.getD i []).set j x)

/-- The matrix stores an `n × n` rectangle. -/
def matShape (M : Mat) (n : ℕ) : Prop :=
  M.length = n ∧ ∀ row ∈ M, row.length = n

/-- The `BinaryMap` (`std::unordered_map<std::string, std::vector<double>>`)
as an association list.  Iteration order of the C++ container is unspecified;
the properties proved below about it are order-insensitive. -/
abbrev BinaryMap := List (Bits × List ℚ)

/-- Map lookup (`find`). -/
def mapFind : BinaryMap → Bits → Option (List ℚ)
  | [], _ => none
  | (k', v') :: m, k => if k' = k then some v' else mapFind m k

/-- The key list of a map. -/
def mapKeys (m : BinaryMap) : List Bits := m.map Prod.fst

/-- Assignment through `operator[]`: update the entry in place when the key
is present, append a new entry otherwise. -/
def mapAssign : BinaryMap → Bits → List ℚ → BinaryMap
  | [], k, v => [(k, v)]
  | (k', v') :: m, k, v =>
      if k' = k then (k, v) :: m else (k', v') :: mapAssign m k v

/-- Map `insert`: keep the map unchanged when the key is present, append the
new entry otherwise. -/
def mapInsert (m : BinaryMap) (k : Bits) (v : List ℚ) : BinaryMap :=
  if (mapFind m k).isSome then m else m ++ [(k, v)]

/-- Loop body of `DbWaveletGrid::setupMatrices` (part_001:91-100) for one
index pair `(i, j)`: compute `shift = 2*i - j` and conditionally assign
`M0[i][j] = 2*coeffs[shift]` and `M1[i][j] = 2*coeffs[shift+1]`. -/
def setupMatricesStep (coeffs : List ℚ) (N : ℤ) (Ms : Mat × Mat) (ij : ℕ × ℕ) :
    Mat × Mat :=
  let i := ij.1
  let j := ij.2
  let shift : ℤ := 2 * (i : ℤ) - (j : ℤ)
  let M0 := if 0 ≤ shift ∧ shift ≤ N then
      matSet Ms.1 i j (2 * coeffs.getD (2 * (i : ℤ) - (j : ℤ)).toNat 0)
    else Ms.1
  let M1 := if -1 ≤ shift ∧ shift ≤ N - 1 then
      matSet Ms.2 i j (2 * coeffs.getD (2 * (i : ℤ) - (j : ℤ) + 1).toNat 0)
    else Ms.2
  (M0, M1)

/-- Row-major enumeration of the nested loop indices `i, j ∈ [0, N)`. -/
def ijPairs (N : ℕ) : List (ℕ × ℕ) :=
  (List.range N).flatMap (fun i => (List.range N).map (fun j => (i, j)))

/-- Embedding of `DbWaveletGrid::setupMatrices` (part_001:87-103): matrices
of size `N × N` with `N = coeffs.size() - 1` (an `int`; the source performs
no validity check on `coeffs`), zero-initialized by `resize` and then filled
by the nested loop.  For the empty sequence the source computes `N = -1` and
passes it to an unsigned `resize` (degenerate); here `Int.toNat` yields
size 0. -/
def setupMatrices (coeffs : List ℚ) : Mat × Mat :=
  let N : ℤ := (coeffs.length : ℤ) - 1
  let Nn : ℕ := N.toNat
  let zero : Mat := List.replicate Nn (List.replicate Nn 0)
  (ijPairs Nn).foldl (setupMatricesStep coeffs N) (zero, zero)

/-- Output of the external LAPACK routine `plumed_lapack_dgesdd`: singular
values `S`, factors `U` and `VT` (flat arrays), and convergence status
`info`. -/
structure SvdOut where
  S : List ℚ
  U : List ℚ
  VT : List ℚ
  info : ℤ

/-- Embedding of `DbWaveletGrid::getEigenvector` (part_001:129-160), with
the external `dgesdd` routine as a parameter.  The source calls the routine
twice, the first time only as a workspace-size query with no effect on the
data, so one oracle application is modelled.  `da` is the column-major
transfer `da[i*N+j] = A(j,i)` with `eigenvalue` subtracted on the diagonal;
the returned eigenvector is `VT[N-1 + i*N]` for `i < N`.  The `info` status
produced by the routine is read by no statement of the source. -/
def getEigenvector (dgesdd : List ℚ → SvdOut) (A : Mat) (eigenvalue : ℚ) :
    List ℚ :=
  let N := A.length
  let da := (List.range N).flatMap (fun i => (List.range N).map (fun j =>
    matGet A j i - if i = j then eigenvalue else 0))
  let out := dgesdd da
  (List.range N).map (fun i => out.VT.getD (N - 1 + i * N) 0)

/-- An SVD oracle returning fixed factors and a fixed status code; used to
exercise `getEigenvector` at concrete decomposition outcomes. -/
def svdStub (vt : List ℚ) (info : ℤ) : List ℚ → SvdOut :=
  fun _ => ⟨[], [], vt, info⟩

/-- The normalization accumulation of `DbWaveletGrid::calcIntegerValues`
(part_001:112-116): `normfactor += values[i] * pow(-i, deriv)` for
`i = 1 … values.size()-1`.  The loop index `i` is `unsigned`, so the
negation `-i` is evaluated in modular unsigned arithmetic *before* the
conversion to `double`: the factor is `(2^32 − i)^deriv`, not `(−i)^deriv`.
The wrapped factor `2^32 − i` is itself exactly representable in a
`double` (and `pow(x, 0) = 1`, `pow(x, 1) = x` are exact); the surrounding
products and sums are modelled exactly over `ℚ`, as everywhere in this
file.  The program passes only `deriv = 0` and `deriv = 1` here
(part_001:56-57). -/
def normalizationSum (values : List ℚ) (deriv : ℕ) : ℚ :=
  (List.range' 1 (values.length - 1)).foldl
    (fun acc i => acc + values.getD i 0 * ((2 ^ 32 : ℚ) - i) ^ deriv) 0

/-- Tail of `DbWaveletGrid::calcIntegerValues` (part_001:112-122): invert
the accumulated sum and rescale every entry.  The source divides
unconditionally, with no tolerance check; the field convention
`1 / (0:ℚ) = 0` stands in for the IEEE infinity the C++ division by zero
produces. -/
def normalizeEigenvector (values : List ℚ) (deriv : ℕ) : List ℚ :=
  let normfactor := normalizationSum values deriv
  let normfactor := 1 / normfactor
  values.map (fun value => value * normfactor)

/-- Embedding of `DbWaveletGrid::calcIntegerValues` (part_001:106-123):
eigenvalue `pow(0.5, deriv)`, eigenvector extraction, then normalization. -/
def calcIntegerValues (dgesdd : List ℚ → SvdOut) (M : Mat) (deriv : ℕ) :
    List ℚ :=
  let eigenvalue : ℚ := (1 / 2) ^ deriv
  normalizeEigenvector (getEigenvector dgesdd M eigenvalue) deriv

/-- State produced by `DbWaveletGrid::cascade`: the two maps, the returned
map (`do_wavelet ? wavelet_map : scaling_map`), and the post-call contents
of the caller's `h_Matvec`/`g_Matvec` (the C++ function takes both by
reference and scales them in place, so the caller's matrices after the call
are `h_final`/`g_final`). -/
structure CascadeResult where
  scaling_map : BinaryMap
  wavelet_map : BinaryMap
  result_map : BinaryMap
  h_final : List Mat
  g_final : List Mat

/-- Body of the inner `k`-loop of the cascade (part_001:196-205): prepend
bit `k` to `binary`, refine with `h_Matvec[k]` into the scaling map, with
`g_Matvec[k]` into the wavelet map when a wavelet pass is requested, and
push the new address. -/
def cascadeInner (hM gM : List Mat) (do_wavelet : Bool) (binary : Bits)
    (k : Bool) (st : BinaryMap × BinaryMap × List Bits) :
    BinaryMap × BinaryMap × List Bits :=
  let new_binary : Bits := k :: binary
  let sm := mapInsert st.1 new_binary
    (mult (if k then hM.getD 1 [] else hM.getD 0 [])
      ((mapFind st.1 binary).getD []))
  if do_wavelet then
    (sm,
     mapInsert st.2.1 new_binary
       (mult (if k then gM.getD 1 [] else gM.getD 0 [])
         ((mapFind sm binary).getD [])),
     st.2.2 ++ [new_binary])
  else
    (sm, st.2.1, st.2.2 ++ [new_binary])

/-- Expansion of one `binary` address of the level loop: the two children
`k = 0` then `k = 1`. -/
def cascadeLevelStep (hM gM : List Mat) (do_wavelet : Bool)
    (st : BinaryMap × BinaryMap × List Bits) (binary : Bits) :
    BinaryMap × BinaryMap × List Bits :=
  cascadeInner hM gM do_wavelet binary true
    (cascadeInner hM gM do_wavelet binary false st)

/-- One iteration `i` of the outer cascade loop (part_001:193-209): expand
every address of `binary_vec`, collecting `new_binary_vec` from empty. -/
def cascadeLevel (hM gM : List Mat) (do_wavelet : Bool)
    (st : BinaryMap × BinaryMap × List Bits) :
    BinaryMap × BinaryMap × List Bits :=
  st.2.2.foldl (cascadeLevelStep hM gM do_wavelet) (st.1, st.2.1, ([] : List Bits))

/-- The outer loop `for (unsigned i = 1; i < recursion_number; ++i)`, as an
iteration count (`recursion_number - 1` iterations in ℕ, matching the
unsigned comparison for `recursion_number = 0`). -/
def cascadeLoop (hM gM : List Mat) (do_wavelet : Bool) :
    ℕ → BinaryMap × BinaryMap × List Bits → BinaryMap × BinaryMap × List Bits
  | 0, st => st
  | n + 1, st => cascadeLoop hM gM do_wavelet n (cascadeLevel hM gM do_wavelet st)

/-- Embedding of `DbWaveletGrid::cascade` (part_001:163-212).  Matrices are
pre-scaled by 2 for derivative passes (`derivnum ≠ 0`); seeding stores
`values_at_integers` at `"0"` and `M1·values` at `"1"`, and — exactly as on
part_001:184-189 — when `do_wavelet` holds the source stores `G0·values` at
`wavelet_map["0"]` and then stores `G1·values` into `scaling_map["1"]`
(overwriting `M1·values`); no entry is stored at `wavelet_map["1"]`. -/
def cascade (h_Matvec g_Matvec : List Mat) (values_at_integers : List ℚ)
    (recursion_number bins_per_int derivnum : ℕ) (do_wavelet : Bool) :
    CascadeResult :=
  let hM := if derivnum ≠ 0 then h_Matvec.map (scaleMat 2) else h_Matvec
  let gM := if do_wavelet then
      (if derivnum ≠ 0 then g_Matvec.map (scaleMat 2) else g_Matvec)
    else g_Matvec
  let sm := mapAssign [] [false] values_at_integers
  let sm := mapAssign sm [true] (mult (hM.getD 1 []) values_at_integers)
  let wm : BinaryMap :=
    if do_wavelet then mapAssign [] [false] (mult (gM.getD 0 []) values_at_integers)
    else []
  let sm := if do_wavelet then mapAssign sm [true] (mult (gM.getD 1 []) values_at_integers)
    else sm
  let st := cascadeLoop hM gM do_wavelet (recursion_number - 1) (sm, wm, [[true]])
  { scaling_map := st.1, wavelet_map := st.2.1,
    result_map := if do_wavelet then st.2.1 else st.1,
    h_final := hM, g_final := gM }

/-- The grid-cell indices written by `DbWaveletGrid::fillGridFromMaps`
(part_001:216-232), in iteration order of the association list.  Note the
source recomputes `bins_per_int` as the size of the value map (part_001:217)
and writes `first_grid_element + bins_per_int*i` for `i` below the value
vector's length. -/
def fillGridCells (values_map : BinaryMap) : List ℕ :=
  let bins_per_int := values_map.length
  values_map.flatMap (fun p =>
    let decimal := dec p.1
    let first_grid_element := decimal * (bins_per_int >>> p.1.length)
    (List.range p.2.length).map (fun i => first_grid_element + bins_per_int * i))

/-- Support width `maxsupport = order*2 - 1` (part_001:40). -/
def maxsupport (order : ℕ) : ℕ := order * 2 - 1

/-- The sizing loop
`while (maxsupport*(1<<recursion_number) < gridsize) recursion_number++`
(part_001:43), with an explicit iteration bound (`fuel`).  A bound of
`gridsize` steps is sufficient whenever `maxsupport ≥ 1`, which is proved
below; the bound only truncates runs that the C++ loop would not finish
(`maxsupport = 0`). -/
def recursionLoop : ℕ → ℕ → ℕ → ℕ → ℕ
  | 0, _, _, r => r
  | fuel + 1, m, g, r => if m * 2 ^ r < g then recursionLoop fuel m g (r + 1) else r

/-- Recursion depth chosen by `setupGrid` (part_001:42-43). -/
def recursion_number (m g : ℕ) : ℕ := recursionLoop g m g 0

/-- Bins per integer translate, `bins_per_int = 1 << recursion_number`
(part_001:45). -/
def bins_per_int (m g : ℕ) : ℕ := 2 ^ recursion_number m g

/-- Adjusted grid size `gridsize = maxsupport*bins_per_int` (part_001:46). -/
def actual_gridsize (m g : ℕ) : ℕ := m * bins_per_int m g

/-- The value-map construction of `DbWaveletGrid::setupGrid`
(part_001:37-80), with the external inputs — the filter coefficients from
`getFilterCoefficients` and the seed vector produced by the SVD-based
`calcIntegerValues` — passed in as parameters.  The grid container itself is
external; `fillGridCells` below gives the cell indices it receives. -/
def buildValueMapModel (h_coeffs g_coeffs values_at_integers : List ℚ)
    (order gridsize : ℕ) (do_wavelet : Bool) : BinaryMap :=
  let ms := maxsupport order
  let r := recursion_number ms gridsize
  let bins := 2 ^ r
  let h := setupMatrices h_coeffs
  let g := setupMatrices g_coeffs
  (cascade [h.1, h.2] [g.1, g.2] values_at_integers r bins 0 do_wavelet).result_map

/-- Children of a list of addresses in source order: bit `0` prepended, then
bit `1` (part_001:196-198). -/
def childList : List Bits → List Bits
  | [] => []
  | b :: l => (false :: b) :: (true :: b) :: childList l

/-- The addresses created at outer-loop iteration `t` of the cascade
(`binary_vec` after `t` iterations): all addresses of length `t + 1` whose
last character is `'1'`. -/
def levelKeys : ℕ → List Bits
  | 0 => [[true]]
  | t + 1 => childList (levelKeys t)

/-- All scaling-map addresses after `t` iterations of the outer loop:
the two seeds `"0"`, `"1"` and every level up to `t`. -/
def keysUpTo : ℕ → List Bits
  | 0 => [[false], [true]]
  | t + 1 => keysUpTo t ++ levelKeys (t + 1)

/-- First grid element of an address (part_001:225):
`decimal * (bins_per_int >> length)`. -/
def baseCell (bins : ℕ) (b : Bits) : ℕ := dec b * (bins >>> b.length)

/-- Folding an additive accumulation equals the initial value plus the sum
of the mapped list. -/
theorem foldl_add_map (l : List ℕ) (f : ℕ → ℚ) (a : ℚ) :
    l.foldl (fun acc i => acc + f i) a = a + (l.map f).sum := by
  induction l generalizing a with
  | nil => simp
  | cons x l ih => simp [ih, add_assoc]

/-- Lookup succeeds exactly on the stored keys. -/
theorem mapFind_isSome_iff (m : BinaryMap) (k : Bits) :
    (mapFind m k).isSome = true ↔ k ∈ mapKeys m := by
  induction m with
  | nil => simp [mapFind, mapKeys]
  | cons p m ih =>
    obtain ⟨k', v'⟩ := p
    by_cases h : k' = k
    · subst h; simp [mapFind, mapKeys]
    · simp [mapFind, mapKeys, h, ih, Ne.symm h]

/-- Keys of an appended map. -/
theorem mapKeys_append (m₁ m₂ : BinaryMap) :
    mapKeys (m₁ ++ m₂) = mapKeys m₁ ++ mapKeys m₂ :=
  List.map_append _ _ _

/-- Inserting a fresh key appends it to the key list. -/
theorem mapKeys_mapInsert_of_notMem (m : BinaryMap) (k : Bits) (v : List ℚ)
    (h : k ∉ mapKeys m) : mapKeys (mapInsert m k v) = mapKeys m ++ [k] := by
  unfold mapInsert
  rw [if_neg fun hs => h ((mapFind_isSome_iff m k).mp hs)]
  simp [mapKeys]

/-- Setting an index of a list and reading it back (in range). -/
theorem getD_set_self {α : Type} (l : List α) (i : ℕ) (a d : α)
    (h : i < l.length) : (l.set i a).getD i d = a := by
  rw [List.getD_eq_getElem?_getD, List.getElem?_set_self h]
  rfl

/-- Setting an index of a list leaves other indices unchanged. -/
theorem getD_set_ne {α : Type} (l : List α) (i j : ℕ) (a d : α) (h : i ≠ j) :
    (l.set i a).getD j d = l.getD j d := by
  rw [List.getD_eq_getElem?_getD, List.getElem?_set_ne h,
    ← List.getD_eq_getElem?_getD]

/-- Reading a list whose members all equal the default yields the default. -/
theorem getD_eq_of_all {α : Type} (l : List α) (d : α) (j : ℕ)
    (h : ∀ y ∈ l, y = d) : l.getD j d = d := by
  rw [List.getD_eq_getElem?_getD]
  cases hj : l[j]? with
  | none => rfl
  | some a => simpa using h a (List.getElem?_mem hj)

/-- Writing one matrix element leaves every other element unchanged. -/
theorem matGet_matSet_ne (M : Mat) (i' j' i j : ℕ) (x : ℚ)
    (h : ¬(i' = i ∧ j' = j)) : matGet (matSet M i' j' x) i j = matGet M i j := by
  unfold matGet matSet
  by_cases hi : i' = i
  · subst hi
    have hj : j' ≠ j := fun hj => h ⟨rfl, hj⟩
    by_cases hlen : i' < M.length
    · rw [getD_set_self M i' ((M.getD i' []).set j' x) [] hlen,
        getD_set_ne _ j' j x 0 hj]
    · rw [List.set_eq_of_length_le (Nat.le_of_not_lt hlen)]
  · rw [getD_set_ne M i' i _ [] hi]

/-- Writing one matrix element stores the written value (in range). -/
theorem matGet_matSet_self (M : Mat) (i j : ℕ) (x : ℚ) (hi : i < M.length)
    (hj : j < (M.getD i []).length) : matGet (matSet M i j x) i j = x := by
  unfold matGet matSet
  rw [getD_set_self M i ((M.getD i []).set j x) [] hi,
    getD_set_self _ j x 0 hj]

/-- Element writes preserve the matrix shape. -/
theorem matShape_matSet (M : Mat) (n i j : ℕ) (x : ℚ) (h : matShape M n) :
    matShape (matSet M i j x) n := by
  obtain ⟨hlen, hrow⟩ := h
  by_cases hi : i < M.length
  · refine ⟨by simp [matSet, hlen], fun row hr => ?_⟩
    rcases List.mem_or_eq_of_mem_set hr with hr' | hr'
    · exact hrow row hr'
    · subst hr'
      rw [List.length_set]
      have hmem : M.getD i [] ∈ M := by
        rw [List.getD_eq_getElem M [] hi]
        exact List.getElem_mem hi
      exact hrow _ hmem
  · unfold matSet
    rw [List.set_eq_of_length_le (Nat.le_of_not_lt hi)]
    exact ⟨hlen, hrow⟩

/-- The zero-initialized matrix is square of the requested size. -/
theorem matShape_replicate (n : ℕ) :
    matShape (List.replicate n (List.replicate n (0 : ℚ))) n := by
  refine ⟨by simp, fun row hr => ?_⟩
  rcases List.mem_replicate.mp hr with ⟨-, rfl⟩
  simp

/-- Every entry of the zero-initialized matrix is zero. -/
theorem matGet_zeros (n i j : ℕ) :
    matGet (List.replicate n (List.replicate n (0 : ℚ))) i j = 0 := by
  unfold matGet
  have houter : (List.replicate n (List.replicate n (0 : ℚ))).getD i [] = [] ∨
      (List.replicate n (List.replicate n (0 : ℚ))).getD i [] =
        List.replicate n (0 : ℚ) := by
    rw [List.getD_eq_getElem?_getD]
    cases hj : (List.replicate n (List.replicate n (0 : ℚ)))[i]? with
    | none => left; rfl
    | some a =>
        right
        have ha := (List.mem_replicate.mp (List.getElem?_mem hj)).2
        simp [ha]
  rcases houter with h | h <;> rw [h]
  · rfl
  · exact getD_eq_of_all _ _ _ (fun y hy => (List.mem_replicate.mp hy).2)

/-- Membership in the loop-index enumeration. -/
theorem mem_ijPairs (N i j : ℕ) : (i, j) ∈ ijPairs N ↔ i < N ∧ j < N := by
  simp [ijPairs, List.mem_flatMap, List.mem_map, List.mem_range]

/-- Shape preservation for a fold of guarded element writes. -/
theorem foldl_guardSet_shape (g : ℕ × ℕ → Prop) [DecidablePred g]
    (f : ℕ × ℕ → ℚ) (l : List (ℕ × ℕ)) (M : Mat) (n : ℕ) (hM : matShape M n) :
    matShape (l.foldl (fun M p => if g p then matSet M p.1 p.2 (f p) else M) M) n := by
  induction l generalizing M with
  | nil => exact hM
  | cons p l ih =>
    rw [List.foldl_cons]
    apply ih
    split_ifs
    · exact matShape_matSet _ _ _ _ _ hM
    · exact hM

/-- Entry of a fold of guarded element writes over in-range, each-cell-once
indices: the guarded value at `(i, j)` when the pair is processed, the
initial entry otherwise.  (Each processed pair writes only its own cell, so
duplicates are harmless: every write to `(i, j)` stores the same value.) -/
theorem foldl_guardSet_matGet (g : ℕ × ℕ → Prop) [DecidablePred g]
    (f : ℕ × ℕ → ℚ) (l : List (ℕ × ℕ)) (M : Mat) (n : ℕ) (hM : matShape M n)
    (hb : ∀ p ∈ l, p.1 < n ∧ p.2 < n) (i j : ℕ) :
    matGet (l.foldl (fun M p => if g p then matSet M p.1 p.2 (f p) else M) M) i j =
      if (i, j) ∈ l ∧ g (i, j) then f (i, j) else matGet M i j := by
  induction l generalizing M with
  | nil => simp
  | cons p l ih =>
    have hM' : matShape (if g p then matSet M p.1 p.2 (f p) else M) n := by
      split_ifs
      · exact matShape_matSet _ _ _ _ _ hM
      · exact hM
    rw [List.foldl_cons, ih _ hM' (fun q hq => hb q (List.mem_cons_of_mem _ hq))]
    by_cases hp : p = (i, j)
    · subst hp
      by_cases hg : g (i, j)
      · have hbnd := hb (i, j) (List.mem_cons_self (i, j) l)
        have hrowlen : ((i, j).1, (i, j).2) = (i, j) := rfl
        have hi' : i < M.length := hM.1 ▸ hbnd.1
        have hrow : (M.getD i []).length = n := by
          have hmem : M.getD i [] ∈ M := by
            rw [List.getD_eq_getElem M [] hi']
            exact List.getElem_mem hi'
          exact hM.2 _ hmem
        have hj' : j < (M.getD i []).length := hrow ▸ hbnd.2
        rw [if_pos hg]
        have hset : matGet (matSet M (i, j).1 (i, j).2 (f (i, j))) i j = f (i, j) :=
          matGet_matSet_self M i j _ hi' hj'
        rw [hset]
        simp [hg]
      · simp [hg]
    · have hne : ¬((i, j) = p) := fun h => hp h.symm
      have hstep : matGet (if g p then matSet M p.1 p.2 (f p) else M) i j =
          matGet M i j := by
        split_ifs
        · exact matGet_matSet_ne M p.1 p.2 i j _ (by
            rintro ⟨h1, h2⟩
            exact hp (Prod.ext h1 h2))
        · rfl
      rw [hstep]
      simp [List.mem_cons, hne]

/-- The pair fold of `setupMatrices` acts on the two matrices
independently. -/
theorem setupFold_components (coeffs : List ℚ) (N : ℤ) (l : List (ℕ × ℕ))
    (S : Mat × Mat) :
    (l.foldl (setupMatricesStep coeffs N) S).1 =
      l.foldl (fun M p => if 0 ≤ 2*(p.1:ℤ) - p.2 ∧ 2*(p.1:ℤ) - p.2 ≤ N
        then matSet M p.1 p.2 (2 * coeffs.getD (2*(p.1:ℤ) - p.2).toNat 0) else M) S.1
    ∧ (l.foldl (setupMatricesStep coeffs N) S).2 =
      l.foldl (fun M p => if -1 ≤ 2*(p.1:ℤ) - p.2 ∧ 2*(p.1:ℤ) - p.2 ≤ N - 1
        then matSet M p.1 p.2 (2 * coeffs.getD (2*(p.1:ℤ) - p.2 + 1).toNat 0) else M) S.2 := by
  induction l generalizing S with
  | nil => exact ⟨rfl, rfl⟩
  | cons p l ih =>
    rw [List.foldl_cons, List.foldl_cons, List.foldl_cons]
    have hstep : setupMatricesStep coeffs N S p =
        ((if 0 ≤ 2*(p.1:ℤ) - p.2 ∧ 2*(p.1:ℤ) - p.2 ≤ N
            then matSet S.1 p.1 p.2 (2 * coeffs.getD (2*(p.1:ℤ) - p.2).toNat 0) else S.1),
         (if -1 ≤ 2*(p.1:ℤ) - p.2 ∧ 2*(p.1:ℤ) - p.2 ≤ N - 1
            then matSet S.2 p.1 p.2 (2 * coeffs.getD (2*(p.1:ℤ) - p.2 + 1).toNat 0) else S.2)) := by
      simp only [setupMatricesStep]
    rw [hstep]
    exact ih _

/-- Unfolding of `setupMatrices` to its fold. -/
theorem setupMatrices_eq (coeffs : List ℚ) :
    setupMatrices coeffs =
      (ijPairs (((coeffs.length:ℤ) - 1).toNat)).foldl
        (setupMatricesStep coeffs ((coeffs.length:ℤ) - 1))
        (List.replicate (((coeffs.length:ℤ) - 1).toNat)
           (List.replicate (((coeffs.length:ℤ) - 1).toNat) (0:ℚ)),
         List.replicate (((coeffs.length:ℤ) - 1).toNat)
           (List.replicate (((coeffs.length:ℤ) - 1).toNat) (0:ℚ))) := rfl

/-- Closed form of the `setupMatrices` entries, for both matrices. -/
theorem setupMatrices_matGet (coeffs : List ℚ) (i j : ℕ)
    (hi : i < coeffs.length - 1) (hj : j < coeffs.length - 1) :
    matGet (setupMatrices coeffs).1 i j =
      (if 0 ≤ 2*(i:ℤ) - j ∧ 2*(i:ℤ) - j ≤ (coeffs.length:ℤ) - 1
       then 2 * coeffs.getD (2*(i:ℤ) - j).toNat 0 else 0)
    ∧ matGet (setupMatrices coeffs).2 i j =
      (if -1 ≤ 2*(i:ℤ) - j ∧ 2*(i:ℤ) - j ≤ ((coeffs.length:ℤ) - 1) - 1
       then 2 * coeffs.getD (2*(i:ℤ) - j + 1).toNat 0 else 0) := by
  have hNn : ((coeffs.length:ℤ) - 1).toNat = coeffs.length - 1 := by omega
  have hb : ∀ p ∈ ijPairs (((coeffs.length:ℤ) - 1).toNat),
      p.1 < coeffs.length - 1 ∧ p.2 < coeffs.length - 1 := by
    intro p hp
    obtain ⟨a, b⟩ := p
    have := (mem_ijPairs _ a b).mp hp
    omega
  have hmem : (i, j) ∈ ijPairs (((coeffs.length:ℤ) - 1).toNat) := by
    rw [mem_ijPairs]
    omega
  have hz : matShape (List.replicate (((coeffs.length:ℤ) - 1).toNat)
      (List.replicate (((coeffs.length:ℤ) - 1).toNat) (0:ℚ))) (coeffs.length - 1) := by
    rw [hNn]; exact matShape_replicate _
  rw [setupMatrices_eq]
  rw [hNn] at hmem
  constructor
  · rw [(setupFold_components coeffs _ _ _).1,
      foldl_guardSet_matGet _ _ _ _ _ hz hb i j]
    simp [hmem, matGet_zeros]
  · rw [(setupFold_components coeffs _ _ _).2,
      foldl_guardSet_matGet _ _ _ _ _ hz hb i j]
    simp [hmem, matGet_zeros]

/-- Shapes of the two `setupMatrices` outputs. -/
theorem setupMatrices_shape (coeffs : List ℚ) :
    matShape (setupMatrices coeffs).1 (coeffs.length - 1) ∧
    matShape (setupMatrices coeffs).2 (coeffs.length - 1) := by
  have hNn : ((coeffs.length:ℤ) - 1).toNat = coeffs.length - 1 := by omega
  have hz : matShape (List.replicate (((coeffs.length:ℤ) - 1).toNat)
      (List.replicate (((coeffs.length:ℤ) - 1).toNat) (0:ℚ))) (coeffs.length - 1) := by
    rw [hNn]; exact matShape_replicate _
  rw [setupMatrices_eq]
  constructor
  · rw [(setupFold_components coeffs _ _ _).1]
    exact foldl_guardSet_shape _ _ _ _ _ hz
  · rw [(setupFold_components coeffs _ _ _).2]
    exact foldl_guardSet_shape _ _ _ _ _ hz

/-- The sizing loop reaches a depth satisfying the exit condition, given
enough fuel. -/
theorem recursionLoop_ge (fuel m g r : ℕ) (h : g ≤ m * 2 ^ (r + fuel)) :
    g ≤ m * 2 ^ recursionLoop fuel m g r := by
  induction fuel generalizing r with
  | zero => simpa using h
  | succ fuel ih =>
    rw [recursionLoop]
    split_ifs with hlt
    · exact ih (r + 1) (by rw [show r + 1 + fuel = r + (fuel + 1) by omega]; exact h)
    · omega

/-- Every depth below the loop's result still fails the exit condition:
the result is minimal. -/
theorem recursionLoop_min (fuel m g r : ℕ) :
    ∀ s, r ≤ s → s < recursionLoop fuel m g r → m * 2 ^ s < g := by
  induction fuel generalizing r with
  | zero =>
    intro s hrs hsz
    rw [recursionLoop] at hsz
    omega
  | succ fuel ih =>
    intro s hrs hsz
    rw [recursionLoop] at hsz
    split_ifs at hsz with hlt
    · rcases Nat.eq_or_lt_of_le hrs with rfl | hlt2
      · exact hlt
      · exact ih (r + 1) s hlt2 hsz
    · omega

/-- C4: for every `order ≥ 1` and requested `gridsize ≥ 1`, the build picks
`recursion_number` as the smallest `r` with `maxsupport·2^r ≥ gridsize`,
sets `bins_per_int = 2^r`, and the actual grid size is
`maxsupport·bins_per_int`. -/
theorem C4_grid_sizing (order gridsize : ℕ) (ho : 1 ≤ order) (hg : 1 ≤ gridsize) :
    gridsize ≤ maxsupport order * 2 ^ recursion_number (maxsupport order) gridsize
    ∧ (∀ s, gridsize ≤ maxsupport order * 2 ^ s →
        recursion_number (maxsupport order) gridsize ≤ s)
    ∧ bins_per_int (maxsupport order) gridsize =
        2 ^ recursion_number (maxsupport order) gridsize
    ∧ actual_gridsize (maxsupport order) gridsize =
        maxsupport order * 2 ^ recursion_number (maxsupport order) gridsize := by
  have hm : 1 ≤ maxsupport order := by unfold maxsupport; omega
  have hfuel : gridsize ≤ maxsupport order * 2 ^ (0 + gridsize) := by
    rw [Nat.zero_add]
    calc gridsize ≤ 2 ^ gridsize := (Nat.lt_two_pow gridsize).le
    _ ≤ maxsupport order * 2 ^ gridsize := Nat.le_mul_of_pos_left _ hm
  refine ⟨?_, ?_, rfl, rfl⟩
  · exact recursionLoop_ge gridsize (maxsupport order) gridsize 0 hfuel
  · intro s hs
    by_contra hcon
    push_neg at hcon
    have := recursionLoop_min gridsize (maxsupport order) gridsize 0 s (Nat.zero_le s) hcon
    omega

/-- Witness for C4 at the claim's concrete instance: `order = 2`, requested
`gridsize = 10` gives `recursion_number = 2`, `bins_per_int = 4`, actual
`gridsize = 12`. -/
theorem C4_grid_sizing_witness :
    (1 ≤ 2 ∧ 1 ≤ 10) ∧
    (10 ≤ maxsupport 2 * 2 ^ recursion_number (maxsupport 2) 10
      ∧ (∀ s, 10 ≤ maxsupport 2 * 2 ^ s → recursion_number (maxsupport 2) 10 ≤ s)
      ∧ bins_per_int (maxsupport 2) 10 = 2 ^ recursion_number (maxsupport 2) 10
      ∧ actual_gridsize (maxsupport 2) 10
          = maxsupport 2 * 2 ^ recursion_number (maxsupport 2) 10)
    ∧ recursion_number (maxsupport 2) 10 = 2
    ∧ bins_per_int (maxsupport 2) 10 = 4
    ∧ actual_gridsize (maxsupport 2) 10 = 12 :=
  ⟨⟨by decide, by decide⟩, C4_grid_sizing 2 10 (by decide) (by decide),
    by decide, by decide, by decide⟩

/-- C6 (amended): the eigenvector extraction of `getEigenvector` depends
only on the `VT` factor returned by the decomposition routine; the
convergence status `info` (and `S`, `U`) are ignored, so a reported
non-convergence changes nothing. -/
theorem C6_info_ignored (svd1 svd2 : List ℚ → SvdOut) (A : Mat) (ev : ℚ)
    (h : ∀ d, (svd1 d).VT = (svd2 d).VT) :
    getEigenvector svd1 A ev = getEigenvector svd2 A ev := by
  simp only [getEigenvector]
  rw [h]

/-- C6 counterexample: with a decomposition oracle reporting
non-convergence (`info = 1`), `getEigenvector` still returns the extracted
vector; no error is raised and the status code is never inspected (the
source has no failure path). -/
theorem C6_counterexample :
    (svdStub [9] 1 []).info = 1 ∧
    getEigenvector (svdStub [9] 1) [[(5:ℚ)]] 1 = [9] :=
  ⟨rfl, rfl⟩

/-- Witness for the amended C6 at a concrete oracle pair differing only in
the reported status. -/
theorem C6_info_ignored_witness :
    getEigenvector (svdStub [9] 1) [[(5:ℚ)]] 1 =
      getEigenvector (svdStub [9] 0) [[(5:ℚ)]] 1 :=
  C6_info_ignored (svdStub [9] 1) (svdStub [9] 0) [[(5:ℚ)]] 1 (fun d => rfl)

/-- C7 counterexample: for the eigenvector `[1, 0]` with `deriv = 0` the
normalization denominator is exactly 0, and `normalizeEigenvector` still
returns a vector — the source divides unconditionally (in C++ producing
non-finite values; in the exact embedding `1/0 = 0`), raising no error.
Moreover at `deriv = 1` the denominator the program computes is not the
claim's `Σ v[i]·(−i)^d`: for `v = [0, 1]` it is `2^32 − 1` (the unsigned
negation wraps), not `−1`. -/
theorem C7_counterexample :
    normalizationSum [(1:ℚ), 0] 0 = 0
    ∧ normalizeEigenvector [(1:ℚ), 0] 0 = [0, 0]
    ∧ normalizationSum [(0:ℚ), 1] 1 = 2 ^ 32 - 1
    ∧ ((2:ℚ) ^ 32 - 1) ≠ -1 := by
  refine ⟨?_, ?_, ?_, ?_⟩
  · norm_num [normalizationSum, List.range']
  · norm_num [normalizeEigenvector, normalizationSum, List.range']
  · norm_num [normalizationSum, List.range']
  · norm_num

/-- C7 (amended): the normalizer has no tolerance check: for every input
vector and derivative order it rescales by the reciprocal of the sum it
actually computes — `Σ_{i=1}^{N-1} v[i]·(2^32 − i)^d`, the unsigned
negation having wrapped, which coincides with the spec's
`Σ v[i]·(−i)^d` only at `d = 0` — including when that sum is zero; no
error path exists in the source. -/
theorem C7_no_tolerance_check (values : List ℚ) (deriv : ℕ) :
    normalizeEigenvector values deriv =
      values.map (fun value => value * (1 / normalizationSum values deriv))
    ∧ normalizationSum values deriv =
      ((List.range' 1 (values.length - 1)).map
        (fun i => values.getD i 0 * ((2 ^ 32 : ℚ) - i) ^ deriv)).sum := by
  constructor
  · rfl
  · unfold normalizationSum
    rw [foldl_add_map, zero_add]

/-- C5: for a filter-coefficient sequence `h` of even length ≥ 2, with
`N = len(h) − 1`, the Dilation Matrix Builder returns `N × N` matrices with
`M0[i][j] = 2·h[shift]` when `0 ≤ shift ≤ N` and 0 otherwise, and
`M1[i][j] = 2·h[shift+1]` when `−1 ≤ shift ≤ N−1` and 0 otherwise, where
`shift = 2i − j`. -/
theorem C5_dilation_matrix_entries (h : List ℚ) (hlen : 2 ≤ h.length)
    (heven : h.length % 2 = 0) (i j : ℕ)
    (hi : i < h.length - 1) (hj : j < h.length - 1) :
    matShape (setupMatrices h).1 (h.length - 1)
    ∧ matShape (setupMatrices h).2 (h.length - 1)
    ∧ matGet (setupMatrices h).1 i j =
        (if 0 ≤ 2*(i:ℤ) - j ∧ 2*(i:ℤ) - j ≤ (h.length:ℤ) - 1
         then 2 * h.getD (2*(i:ℤ) - j).toNat 0 else 0)
    ∧ matGet (setupMatrices h).2 i j =
        (if -1 ≤ 2*(i:ℤ) - j ∧ 2*(i:ℤ) - j ≤ ((h.length:ℤ) - 1) - 1
         then 2 * h.getD (2*(i:ℤ) - j + 1).toNat 0 else 0) :=
  ⟨(setupMatrices_shape h).1, (setupMatrices_shape h).2,
   (setupMatrices_matGet h i j hi hj).1, (setupMatrices_matGet h i j hi hj).2⟩

/-- Witness for C5 at the order-2 sequence `[1, 2, 3, 4]`, entry `(1, 0)`
(`shift = 2`, in range, value `2·h[2] = 6`). -/
theorem C5_dilation_matrix_entries_witness :
    (2 ≤ [(1:ℚ), 2, 3, 4].length ∧ [(1:ℚ), 2, 3, 4].length % 2 = 0
      ∧ 1 < [(1:ℚ), 2, 3, 4].length - 1 ∧ 0 < [(1:ℚ), 2, 3, 4].length - 1)
    ∧ matGet (setupMatrices [(1:ℚ), 2, 3, 4]).1 1 0 = 6 := by
  refine ⟨by norm_num, ?_⟩
  have h := C5_dilation_matrix_entries [(1:ℚ), 2, 3, 4] (by norm_num) (by norm_num)
    1 0 (by norm_num) (by norm_num)
  rw [h.2.2.1]
  norm_num [List.getD, Int.toNat, List.getElem_cons_succ, List.getElem_cons_zero]

/-- C8 (amended): `setupMatrices` performs no validation of its coefficient
sequence: for every sequence of length ≥ 1 — odd lengths included — it
returns two `(len−1) × (len−1)` matrices filled by the shift rule; no
configuration-error path exists in the source (the empty sequence underflows
`N = size − 1` instead of being rejected). -/
theorem C8_no_validation (coeffs : List ℚ) (hne : 1 ≤ coeffs.length) :
    matShape (setupMatrices coeffs).1 (coeffs.length - 1)
    ∧ matShape (setupMatrices coeffs).2 (coeffs.length - 1)
    ∧ ∀ i j, i < coeffs.length - 1 → j < coeffs.length - 1 →
        (matGet (setupMatrices coeffs).1 i j =
          (if 0 ≤ 2*(i:ℤ) - j ∧ 2*(i:ℤ) - j ≤ (coeffs.length:ℤ) - 1
           then 2 * coeffs.getD (2*(i:ℤ) - j).toNat 0 else 0)
        ∧ matGet (setupMatrices coeffs).2 i j =
          (if -1 ≤ 2*(i:ℤ) - j ∧ 2*(i:ℤ) - j ≤ ((coeffs.length:ℤ) - 1) - 1
           then 2 * coeffs.getD (2*(i:ℤ) - j + 1).toNat 0 else 0)) :=
  ⟨(setupMatrices_shape coeffs).1, (setupMatrices_shape coeffs).2,
   fun i j hi hj => setupMatrices_matGet coeffs i j hi hj⟩

/-- C8 counterexample: at the odd-length sequence `[1, 2, 3]` the builder
raises no configuration error — it returns the two 2×2 matrices filled by
the shift rule (the source contains no failure path at all). -/
theorem C8_counterexample :
    [(1:ℚ), 2, 3].length % 2 = 1 ∧
    setupMatrices [(1:ℚ), 2, 3] = ([[2, 0], [6, 4]], [[4, 2], [0, 6]]) := by
  constructor
  · norm_num
  · norm_num [setupMatrices, ijPairs, setupMatricesStep, matSet, matGet, List.range,
      List.range.loop, List.replicate, List.set, Int.toNat_ofNat, Int.toNat,
      List.getElem_cons_succ, List.getElem_cons_zero]

/-- Witness for the amended C8 at the odd-length sequence `[1, 2, 3]`,
entry `(1, 1)` (`shift = 1`, value `2·h[1] = 4`). -/
theorem C8_no_validation_witness :
    1 ≤ [(1:ℚ), 2, 3].length ∧
    matGet (setupMatrices [(1:ℚ), 2, 3]).1 1 1 = 4 := by
  refine ⟨by norm_num, ?_⟩
  have h := C8_no_validation [(1:ℚ), 2, 3] (by norm_num)
  rw [(h.2.2 1 1 (by norm_num) (by norm_num)).1]
  norm_num [List.getD, Int.toNat, List.getElem_cons_succ, List.getElem_cons_zero]

/-- Membership in the child list. -/
theorem mem_childList (l : List Bits) (c : Bits) :
    c ∈ childList l ↔ ∃ b ∈ l, c = false :: b ∨ c = true :: b := by
  induction l with
  | nil => simp [childList]
  | cons b l ih =>
    simp only [childList, List.mem_cons, ih]
    constructor
    · rintro (rfl | rfl | ⟨b', hb', hc⟩)
      · exact ⟨b, Or.inl rfl, Or.inl rfl⟩
      · exact ⟨b, Or.inl rfl, Or.inr rfl⟩
      · exact ⟨b', Or.inr hb', hc⟩
    · rintro ⟨b', (rfl | hb'), (rfl | rfl)⟩
      · exact Or.inl rfl
      · exact Or.inr (Or.inl rfl)
      · exact Or.inr (Or.inr ⟨b', hb', Or.inl rfl⟩)
      · exact Or.inr (Or.inr ⟨b', hb', Or.inr rfl⟩)

/-- A child of a member is in the child list. -/
theorem cons_mem_childList (l : List Bits) (b : Bits) (k : Bool) (h : b ∈ l) :
    (k :: b) ∈ childList l :=
  (mem_childList l _).mpr ⟨b, h, by cases k <;> simp⟩

/-- Children of distinct addresses are distinct. -/
theorem childList_nodup (l : List Bits) (h : l.Nodup) : (childList l).Nodup := by
  induction l with
  | nil => simp [childList]
  | cons b l ih =>
    rw [List.nodup_cons] at h
    obtain ⟨hb, hl⟩ := h
    have hf : (false :: b) ∉ childList l := by
      intro hmem
      rcases (mem_childList l _).mp hmem with ⟨b', hb', h1 | h1⟩
      · rw [List.cons.injEq] at h1
        exact hb (h1.2 ▸ hb')
      · simp at h1
    have ht : (true :: b) ∉ childList l := by
      intro hmem
      rcases (mem_childList l _).mp hmem with ⟨b', hb', h1 | h1⟩
      · simp at h1
      · rw [List.cons.injEq] at h1
        exact hb (h1.2 ▸ hb')
    rw [childList, List.nodup_cons, List.nodup_cons]
    refine ⟨?_, ht, ih hl⟩
    intro hmem
    rcases List.mem_cons.mp hmem with h1 | h1
    · simp at h1
    · exact hf h1

/-- Length of the child list. -/
theorem childList_length (l : List Bits) : (childList l).length = 2 * l.length := by
  induction l with
  | nil => simp [childList]
  | cons b l ih => simp [childList, ih]; omega

/-- The level-`t` addresses are exactly those of the form `bs ++ [true]`
with `bs` of length `t` — length `t + 1`, last bit 1. -/
theorem mem_levelKeys (t : ℕ) (b : Bits) :
    b ∈ levelKeys t ↔ ∃ bs : Bits, bs.length = t ∧ b = bs ++ [true] := by
  induction t generalizing b with
  | zero =>
    simp only [levelKeys, List.mem_singleton]
    constructor
    · rintro rfl; exact ⟨[], rfl, rfl⟩
    · rintro ⟨bs, hbs, rfl⟩
      rw [List.length_eq_zero] at hbs
      subst hbs; rfl
  | succ t ih =>
    rw [levelKeys, mem_childList]
    constructor
    · rintro ⟨b', hb', rfl | rfl⟩ <;>
        rcases (ih b').mp hb' with ⟨bs, hlen, rfl⟩
      · exact ⟨false :: bs, by simp [hlen], rfl⟩
      · exact ⟨true :: bs, by simp [hlen], rfl⟩
    · rintro ⟨bs, hlen, rfl⟩
      cases bs with
      | nil => simp at hlen
      | cons k bs' =>
        refine ⟨bs' ++ [true], (ih _).mpr ⟨bs', by simpa using hlen, rfl⟩, ?_⟩
        cases k <;> simp

/-- There are `2^t` level-`t` addresses. -/
theorem levelKeys_length (t : ℕ) : (levelKeys t).length = 2 ^ t := by
  induction t with
  | zero => rfl
  | succ t ih => rw [levelKeys, childList_length, ih, pow_succ]; ring

/-- The level-`t` addresses are distinct. -/
theorem levelKeys_nodup (t : ℕ) : (levelKeys t).Nodup := by
  induction t with
  | zero => simp [levelKeys]
  | succ t ih => exact childList_nodup _ ih

/-- The accumulated key list holds `"0"` and every address ending in bit 1
of length at most `t + 1`. -/
theorem mem_keysUpTo (t : ℕ) (b : Bits) :
    b ∈ keysUpTo t ↔ b = [false] ∨ ∃ bs : Bits, bs.length ≤ t ∧ b = bs ++ [true] := by
  induction t with
  | zero =>
    simp only [keysUpTo, List.mem_cons, List.mem_singleton, List.not_mem_nil, or_false]
    constructor
    · rintro (rfl | rfl)
      · exact Or.inl rfl
      · exact Or.inr ⟨[], by simp, rfl⟩
    · rintro (rfl | ⟨bs, hl, rfl⟩)
      · exact Or.inl rfl
      · rw [Nat.le_zero, List.length_eq_zero] at hl
        subst hl; exact Or.inr rfl
  | succ t ih =>
    rw [keysUpTo]
    constructor
    · intro hmem
      rcases List.mem_append.mp hmem with hm | hm
      · rcases ih.mp hm with h | ⟨bs, hl, rfl⟩
        · exact Or.inl h
        · exact Or.inr ⟨bs, by omega, rfl⟩
      · rcases (mem_levelKeys _ _).mp hm with ⟨bs, hl, rfl⟩
        exact Or.inr ⟨bs, by omega, rfl⟩
    · rintro (h | ⟨bs, hl, rfl⟩)
      · exact List.mem_append.mpr (Or.inl (ih.mpr (Or.inl h)))
      · by_cases hle : bs.length ≤ t
        · exact List.mem_append.mpr (Or.inl (ih.mpr (Or.inr ⟨bs, hle, rfl⟩)))
        · exact List.mem_append.mpr
            (Or.inr ((mem_levelKeys _ _).mpr ⟨bs, by omega, rfl⟩))

/-- There are `2^(t+1)` accumulated keys. -/
theorem keysUpTo_length (t : ℕ) : (keysUpTo t).length = 2 ^ (t + 1) := by
  induction t with
  | zero => rfl
  | succ t ih =>
    rw [keysUpTo, List.length_append, ih, levelKeys_length]
    ring

/-- Accumulated keys have length at most `t + 1`. -/
theorem length_le_of_mem_keysUpTo (t : ℕ) (b : Bits) (h : b ∈ keysUpTo t) :
    b.length ≤ t + 1 := by
  rcases (mem_keysUpTo t b).mp h with rfl | ⟨bs, hl, rfl⟩
  · simp
  · simp
    omega

/-- Accumulated keys are nonempty addresses. -/
theorem one_le_length_of_mem_keysUpTo (t : ℕ) (b : Bits) (h : b ∈ keysUpTo t) :
    1 ≤ b.length := by
  rcases (mem_keysUpTo t b).mp h with rfl | ⟨bs, hl, rfl⟩
  · simp
  · simp

/-- The accumulated keys are distinct. -/
theorem keysUpTo_nodup (t : ℕ) : (keysUpTo t).Nodup := by
  induction t with
  | zero => simp [keysUpTo]
  | succ t ih =>
    rw [keysUpTo, List.nodup_append]
    refine ⟨ih, levelKeys_nodup _, ?_⟩
    intro b hb hb'
    have h1 := length_le_of_mem_keysUpTo t b hb
    rcases (mem_levelKeys _ _).mp hb' with ⟨bs, hl, rfl⟩
    simp at h1
    omega

/-- Keys of the two seed assignments. -/
theorem cascade_seed_keys (v w : List ℚ) :
    mapKeys (mapAssign (mapAssign [] [false] v) [true] w) = [[false], [true]] := by
  simp [mapAssign, mapKeys]

/-- One scaling-branch inner step of the cascade at a fresh child address:
the child is appended to the scaling keys, the wavelet map is untouched,
and the child is pushed onto the new address vector. -/
theorem cascadeInner_false (hM gM : List Mat) (b : Bits) (k : Bool)
    (st : BinaryMap × BinaryMap × List Bits) (h : (k :: b) ∉ mapKeys st.1) :
    mapKeys (cascadeInner hM gM false b k st).1 = mapKeys st.1 ++ [k :: b]
    ∧ (cascadeInner hM gM false b k st).2.1 = st.2.1
    ∧ (cascadeInner hM gM false b k st).2.2 = st.2.2 ++ [k :: b] := by
  exact ⟨mapKeys_mapInsert_of_notMem _ _ _ h, rfl, rfl⟩

/-- One full level step (both children) at fresh child addresses. -/
theorem cascadeLevelStep_false (hM gM : List Mat) (b : Bits)
    (st : BinaryMap × BinaryMap × List Bits)
    (h0 : (false :: b) ∉ mapKeys st.1) (h1 : (true :: b) ∉ mapKeys st.1) :
    mapKeys (cascadeLevelStep hM gM false st b).1
      = mapKeys st.1 ++ [false :: b, true :: b]
    ∧ (cascadeLevelStep hM gM false st b).2.1 = st.2.1
    ∧ (cascadeLevelStep hM gM false st b).2.2 = st.2.2 ++ [false :: b, true :: b] := by
  unfold cascadeLevelStep
  have hA := cascadeInner_false hM gM b false st h0
  have h1' : (true :: b) ∉ mapKeys (cascadeInner hM gM false b false st).1 := by
    rw [hA.1]
    intro hmem
    rcases List.mem_append.mp hmem with hm | hm
    · exact h1 hm
    · simp at hm
  have hB := cascadeInner_false hM gM b true (cascadeInner hM gM false b false st) h1'
  refine ⟨?_, ?_, ?_⟩
  · rw [hB.1, hA.1, List.append_assoc]
    rfl
  · rw [hB.2.1, hA.2.1]
  · rw [hB.2.2, hA.2.2, List.append_assoc]
    rfl

/-- The level fold over a vector of addresses with fresh, mutually distinct
children: the scaling keys are extended by the child list, the wavelet map
is untouched, the new vector is extended by the child list. -/
theorem cascadeLevel_fold_false (hM gM : List Mat) (vec : List Bits) :
    ∀ (st : BinaryMap × BinaryMap × List Bits),
    (∀ b ∈ vec, (false :: b) ∉ mapKeys st.1 ∧ (true :: b) ∉ mapKeys st.1) →
    (childList vec).Nodup →
    mapKeys (vec.foldl (cascadeLevelStep hM gM false) st).1
        = mapKeys st.1 ++ childList vec
    ∧ (vec.foldl (cascadeLevelStep hM gM false) st).2.1 = st.2.1
    ∧ (vec.foldl (cascadeLevelStep hM gM false) st).2.2 = st.2.2 ++ childList vec := by
  induction vec with
  | nil => intro st _ _; simp [childList]
  | cons b vec ih =>
    intro st hfresh hnodup
    rw [List.foldl_cons]
    have hb := hfresh b (List.mem_cons_self b vec)
    have hstep := cascadeLevelStep_false hM gM b st hb.1 hb.2
    have hnodup' : (childList vec).Nodup := by
      rw [childList] at hnodup
      exact (List.nodup_cons.mp (List.nodup_cons.mp hnodup).2).2
    have hfb : (false :: b) ∉ childList vec := by
      rw [childList] at hnodup
      intro hmem
      exact (List.nodup_cons.mp hnodup).1 (List.mem_cons_of_mem _ hmem)
    have htb : (true :: b) ∉ childList vec := by
      rw [childList] at hnodup
      exact (List.nodup_cons.mp (List.nodup_cons.mp hnodup).2).1
    have hfresh' : ∀ b' ∈ vec,
        (false :: b') ∉ mapKeys (cascadeLevelStep hM gM false st b).1
        ∧ (true :: b') ∉ mapKeys (cascadeLevelStep hM gM false st b).1 := by
      intro b' hb'
      rw [hstep.1]
      constructor <;> intro hmem <;> rcases List.mem_append.mp hmem with hm | hm
      · exact (hfresh b' (List.mem_cons_of_mem _ hb')).1 hm
      · rcases List.mem_cons.mp hm with h' | h'
        · rw [List.cons.injEq] at h'
          exact hfb (h'.2 ▸ cons_mem_childList vec b' false hb')
        · simp at h'
      · exact (hfresh b' (List.mem_cons_of_mem _ hb')).2 hm
      · rcases List.mem_cons.mp hm with h' | h'
        · simp at h'
        · rcases List.mem_singleton.mp h' with h''
          rw [List.cons.injEq] at h''
          exact htb (h''.2 ▸ cons_mem_childList vec b' true hb')
    have hres := ih (cascadeLevelStep hM gM false st b) hfresh' hnodup'
    refine ⟨?_, ?_, ?_⟩
    · rw [hres.1, hstep.1, List.append_assoc]
      rfl
    · rw [hres.2.1, hstep.2.1]
    · rw [hres.2.2, hstep.2.2, List.append_assoc]
      rfl

/-- The outer cascade loop (scaling branch): starting from keys
`keysUpTo t` and vector `levelKeys t`, after `n` iterations the keys are
`keysUpTo (t + n)` and the wavelet map is untouched. -/
theorem cascadeLoop_false (hM gM : List Mat) (n : ℕ) :
    ∀ (t : ℕ) (st : BinaryMap × BinaryMap × List Bits),
    mapKeys st.1 = keysUpTo t → st.2.2 = levelKeys t →
    mapKeys (cascadeLoop hM gM false n st).1 = keysUpTo (t + n)
    ∧ (cascadeLoop hM gM false n st).2.1 = st.2.1 := by
  induction n with
  | zero =>
    intro t st hk hv
    rw [Nat.add_zero]
    exact ⟨hk, rfl⟩
  | succ n ih =>
    intro t st hk hv
    rw [cascadeLoop]
    have hfresh : ∀ b ∈ levelKeys t,
        (false :: b) ∉ mapKeys st.1 ∧ (true :: b) ∉ mapKeys st.1 := by
      intro b hb
      constructor <;> intro hmem <;>
        · have hle := length_le_of_mem_keysUpTo t _ (hk ▸ hmem)
          rcases (mem_levelKeys t b).mp hb with ⟨bs, hl, rfl⟩
          simp at hle
          omega
    have hnodup : (childList (levelKeys t)).Nodup := levelKeys_nodup (t + 1)
    have hfold := cascadeLevel_fold_false hM gM (levelKeys t)
      (st.1, st.2.1, ([] : List Bits)) (fun b hb => hfresh b hb) hnodup
    have hlev_eq : cascadeLevel hM gM false st =
        (levelKeys t).foldl (cascadeLevelStep hM gM false)
          (st.1, st.2.1, ([] : List Bits)) := by
      unfold cascadeLevel
      rw [hv]
    have h1 : mapKeys (cascadeLevel hM gM false st).1 = keysUpTo (t + 1) := by
      rw [hlev_eq, hfold.1]
      dsimp only
      rw [hk]
      rfl
    have h2 : (cascadeLevel hM gM false st).2.2 = levelKeys (t + 1) := by
      rw [hlev_eq, hfold.2.2]
      rfl
    have hrec := ih (t + 1) (cascadeLevel hM gM false st) h1 h2
    rw [show t + (n + 1) = t + 1 + n from by omega]
    refine ⟨hrec.1, ?_⟩
    rw [hrec.2, hlev_eq, hfold.2.1]

/-- At `do_wavelet = false` the cascade reduces to the scaling loop on the
seeded map. -/
theorem cascade_false_result (hM gM : List Mat) (v : List ℚ)
    (r bins derivnum : ℕ) :
    (cascade hM gM v r bins derivnum false).result_map =
      (cascadeLoop (if derivnum ≠ 0 then hM.map (scaleMat 2) else hM) gM false (r - 1)
        (mapAssign (mapAssign [] [false] v) [true]
          (mult ((if derivnum ≠ 0 then hM.map (scaleMat 2) else hM).getD 1 []) v),
         ([] : BinaryMap), [[true]])).1 := rfl

/-- The key list of the map returned by a scaling-branch cascade is exactly
`keysUpTo (recursion_number − 1)`, for every input. -/
theorem cascade_scaling_keys (hM gM : List Mat) (v : List ℚ)
    (r bins derivnum : ℕ) :
    mapKeys (cascade hM gM v r bins derivnum false).result_map = keysUpTo (r - 1) := by
  rw [cascade_false_result]
  have h := cascadeLoop_false (if derivnum ≠ 0 then hM.map (scaleMat 2) else hM) gM
    (r - 1) 0
    (mapAssign (mapAssign [] [false] v) [true]
       (mult ((if derivnum ≠ 0 then hM.map (scaleMat 2) else hM).getD 1 []) v),
     ([] : BinaryMap), [[true]])
    (cascade_seed_keys v _) rfl
  rw [h.1, Nat.zero_add]

/-- Folding the binary-value step from an arbitrary accumulator. -/
theorem dec_foldl (b : Bits) (a : ℕ) :
    b.foldl (fun a c => 2 * a + cond c 1 0) a = a * 2 ^ b.length + dec b := by
  induction b generalizing a with
  | nil => simp [dec]
  | cons c b ih =>
    rw [List.foldl_cons, ih]
    have hd : dec (c :: b) = (2 * 0 + cond c 1 0) * 2 ^ b.length + dec b := by
      rw [dec, List.foldl_cons, ih]
    rw [hd, List.length_cons, pow_succ]
    ring

/-- Value of an address after prepending one (most significant) bit. -/
theorem dec_cons (k : Bool) (b : Bits) :
    dec (k :: b) = (cond k 1 0) * 2 ^ b.length + dec b := by
  rw [dec, List.foldl_cons, dec_foldl]
  simp

/-- Value of an address ending in bit 1: an odd number. -/
theorem dec_append_true (bs : Bits) : dec (bs ++ [true]) = 2 * dec bs + 1 := by
  rw [dec, List.foldl_append, ← dec]
  simp [dec_foldl]

/-- The value of an address is below `2^length`. -/
theorem dec_lt (b : Bits) : dec b < 2 ^ b.length := by
  induction b with
  | nil => simp [dec]
  | cons c b ih =>
    rw [dec_cons, List.length_cons, pow_succ]
    cases c <;> simp <;> omega

/-- Right shift of a power of two. -/
theorem two_pow_shiftRight (r l : ℕ) (h : l ≤ r) : 2 ^ r >>> l = 2 ^ (r - l) := by
  rw [Nat.shiftRight_eq_div_pow, Nat.pow_div h (by norm_num)]

/-- Interleaving helper: pulling the two appended singletons to the end. -/
theorem append_swap_perm {α : Type} (A B : List α) (x y : α) :
    ((A ++ [x]) ++ (B ++ [y])).Perm ((A ++ B) ++ [x, y]) := by
  have h1 : (A ++ [x]) ++ (B ++ [y]) = A ++ (([x] ++ B) ++ [y]) := by
    simp [List.append_assoc]
  have h2 : (A ++ B) ++ [x, y] = A ++ ((B ++ [x]) ++ [y]) := by
    simp [List.append_assoc]
  rw [h1, h2]
  exact List.Perm.append_left A (List.Perm.append_right [y] List.perm_append_comm)

/-- The even numbers below `2m` followed by the odd numbers below `2m` are a
permutation of `{0, …, 2m−1}`. -/
theorem evens_odds_perm (m : ℕ) :
    (((List.range m).map (fun a => 2 * a)) ++
      ((List.range m).map (fun a => 2 * a + 1))).Perm (List.range (2 * m)) := by
  induction m with
  | zero => simp
  | succ m ih =>
    rw [List.range_succ, List.map_append, List.map_append]
    have h2 : 2 * (m + 1) = 2 * m + 1 + 1 := by ring
    rw [h2, List.range_succ, List.range_succ]
    refine (append_swap_perm _ _ _ _).trans ?_
    refine (List.Perm.append_right _ ih).trans ?_
    simp [List.append_assoc]

/-- Splitting the odd numbers below `2^(t+1)` at `2^t`. -/
theorem oddsList_split (t : ℕ) :
    (List.range (2 ^ (t + 1))).map (fun a => 2 * a + 1) =
      ((List.range (2 ^ t)).map (fun a => 2 * a + 1)) ++
      ((List.range (2 ^ t)).map (fun a => 2 ^ (t + 1) + (2 * a + 1))) := by
  have h : 2 ^ (t + 1) = 2 ^ t + 2 ^ t := by ring
  rw [h, List.range_add, List.map_append, List.map_map]
  congr 1
  apply List.map_congr_left
  intro a ha
  simp only [Function.comp_apply]
  ring

/-- Values of the children of a fixed-length address list, in order: the
original values (bit 0 prepended) and the shifted values (bit 1). -/
theorem childList_dec_perm (l : List Bits) (L : ℕ) (hl : ∀ b ∈ l, b.length = L) :
    ((childList l).map dec).Perm
      ((l.map dec) ++ (l.map (fun b => 2 ^ L + dec b))) := by
  induction l with
  | nil => simp [childList]
  | cons b l ih =>
    have hb := hl b (List.mem_cons_self b l)
    have hdf : dec (false :: b) = dec b := by rw [dec_cons]; simp
    have hdt : dec (true :: b) = 2 ^ L + dec b := by rw [dec_cons, hb]; simp
    have ihh := ih (fun b' hb' => hl b' (List.mem_cons_of_mem _ hb'))
    rw [childList]
    simp only [List.map_cons]
    rw [hdf, hdt]
    exact ((ihh.cons _).trans List.perm_middle.symm).cons _

/-- The values of the level-`t` addresses are a permutation of the odd
numbers below `2^(t+1)`. -/
theorem levelKeys_dec_perm (t : ℕ) :
    ((levelKeys t).map dec).Perm ((List.range (2 ^ t)).map (fun a => 2 * a + 1)) := by
  induction t with
  | zero => exact List.Perm.refl [1]
  | succ t ih =>
    have hlen : ∀ b ∈ levelKeys t, b.length = t + 1 := by
      intro b hb
      rcases (mem_levelKeys t b).mp hb with ⟨bs, hl, rfl⟩
      simp [hl]
    have h1 := childList_dec_perm (levelKeys t) (t + 1) hlen
    rw [levelKeys]
    refine h1.trans ?_
    rw [oddsList_split t]
    refine List.Perm.append ih ?_
    have e1 : (levelKeys t).map (fun b => 2 ^ (t + 1) + dec b)
        = ((levelKeys t).map dec).map (fun d => 2 ^ (t + 1) + d) := by
      rw [List.map_map]; rfl
    have e2 : ((List.range (2 ^ t)).map (fun a => 2 * a + 1)).map
          (fun d => 2 ^ (t + 1) + d)
        = (List.range (2 ^ t)).map (fun a => 2 ^ (t + 1) + (2 * a + 1)) := by
      rw [List.map_map]; rfl
    rw [e1, ← e2]
    exact ih.map _

/-- The first grid elements of the accumulated keys are a permutation of
`{0, …, 2^(s+1)−1}`: each base cell is hit exactly once. -/
theorem keysUpTo_baseCell_perm (s : ℕ) :
    ((keysUpTo s).map (baseCell (2 ^ (s + 1)))).Perm (List.range (2 ^ (s + 1))) := by
  induction s with
  | zero =>
    have h : (keysUpTo 0).map (baseCell (2 ^ 1)) = List.range 2 := by decide
    rw [h, pow_one]
  | succ s ih =>
    rw [keysUpTo, List.map_append]
    have hpart1 : (keysUpTo s).map (baseCell (2 ^ (s + 1 + 1))) =
        ((keysUpTo s).map (baseCell (2 ^ (s + 1)))).map (fun n => 2 * n) := by
      rw [List.map_map]
      apply List.map_congr_left
      intro b hb
      have hlen := length_le_of_mem_keysUpTo s b hb
      simp only [Function.comp_apply, baseCell]
      rw [two_pow_shiftRight _ _ (by omega), two_pow_shiftRight _ _ (by omega)]
      rw [show s + 1 + 1 - b.length = (s + 1 - b.length) + 1 from by omega, pow_succ]
      ring
    have hpart2 : (levelKeys (s + 1)).map (baseCell (2 ^ (s + 1 + 1))) =
        (levelKeys (s + 1)).map dec := by
      apply List.map_congr_left
      intro b hb
      rcases (mem_levelKeys _ _).mp hb with ⟨bs, hl, rfl⟩
      have hblen : (bs ++ [true]).length = s + 1 + 1 := by simp [hl]
      rw [baseCell, hblen, two_pow_shiftRight _ _ (le_refl _), Nat.sub_self,
        pow_zero, Nat.mul_one]
    rw [hpart1, hpart2]
    refine (List.Perm.append (ih.map _) (levelKeys_dec_perm (s + 1))).trans ?_
    have h := evens_odds_perm (2 ^ (s + 1))
    rw [show 2 * 2 ^ (s + 1) = 2 ^ (s + 1 + 1) from by ring] at h
    exact h

/-- C10: for every scaling-function cascade (`do_wavelet = false`) with
`recursion_number = r ≥ 1`, the returned map has exactly `2^r` distinct
keys — the address `"0"` plus, for each length `ℓ ∈ [1, r]`, every bit
string of length `ℓ` whose last bit is `'1'` — and under the Grid Filler's
rule `base_cell = dec(b)·(bins_per_int >> len(b))` these keys map
bijectively onto the base cells `{0, …, bins_per_int − 1}`. -/
theorem C10_scaling_bijection (hM gM : List Mat) (v : List ℚ)
    (r bins derivnum : ℕ) (hr : 1 ≤ r) :
    (mapKeys (cascade hM gM v r bins derivnum false).result_map).length = 2 ^ r
    ∧ (mapKeys (cascade hM gM v r bins derivnum false).result_map).Nodup
    ∧ (∀ b : Bits, b ∈ mapKeys (cascade hM gM v r bins derivnum false).result_map ↔
        (b = [false] ∨ (1 ≤ b.length ∧ b.length ≤ r ∧ b.getLast? = some true)))
    ∧ ((mapKeys (cascade hM gM v r bins derivnum false).result_map).map
        (baseCell (2 ^ r))).Perm (List.range (2 ^ r)) := by
  have hkeys := cascade_scaling_keys hM gM v r bins derivnum
  obtain ⟨s, rfl⟩ : ∃ s, r = s + 1 := ⟨r - 1, by omega⟩
  simp only [Nat.add_sub_cancel] at hkeys
  rw [hkeys]
  refine ⟨keysUpTo_length s, keysUpTo_nodup s, ?_, keysUpTo_baseCell_perm s⟩
  intro b
  rw [mem_keysUpTo]
  constructor
  · rintro (rfl | ⟨bs, hl, rfl⟩)
    · exact Or.inl rfl
    · refine Or.inr ⟨by simp, by simp; omega, List.getLast?_concat _⟩
  · rintro (rfl | ⟨h1, h2, h3⟩)
    · exact Or.inl rfl
    · right
      rcases List.eq_nil_or_concat b with rfl | ⟨bs, k, rfl⟩
      · simp at h1
      · rw [List.concat_eq_append] at h3 h2 ⊢
        rw [List.getLast?_concat] at h3
        have hk : k = true := by
          injection h3
        subst hk
        refine ⟨bs, ?_, rfl⟩
        simp at h2
        omega

/-- Witness for C10 at `recursion_number = 2` (empty matrices and seed:
the key structure is input-independent). -/
theorem C10_scaling_bijection_witness :
    1 ≤ 2 ∧
    ((mapKeys (cascade [] [] [] 2 4 0 false).result_map).length = 2 ^ 2
    ∧ (mapKeys (cascade [] [] [] 2 4 0 false).result_map).Nodup
    ∧ (∀ b : Bits, b ∈ mapKeys (cascade [] [] [] 2 4 0 false).result_map ↔
        (b = [false] ∨ (1 ≤ b.length ∧ b.length ≤ 2 ∧ b.getLast? = some true)))
    ∧ ((mapKeys (cascade [] [] [] 2 4 0 false).result_map).map
        (baseCell (2 ^ 2))).Perm (List.range (2 ^ 2))) :=
  ⟨by norm_num, C10_scaling_bijection [] [] [] 2 4 0 (by norm_num)⟩

/-- C3 (amended): for every scaling-branch cascade (`do_wavelet = false`)
with `recursion_number = r ≥ 1`, the returned map has exactly
`2^r = bins_per_int` distinct addresses, but their lengths range over the
whole interval `[1, r]` rather than all equalling `r`. -/
theorem C3_scaling_key_count (hM gM : List Mat) (v : List ℚ)
    (r bins derivnum : ℕ) (hr : 1 ≤ r) :
    (cascade hM gM v r bins derivnum false).result_map.length = 2 ^ r
    ∧ (mapKeys (cascade hM gM v r bins derivnum false).result_map).Nodup
    ∧ ∀ b ∈ mapKeys (cascade hM gM v r bins derivnum false).result_map,
        1 ≤ b.length ∧ b.length ≤ r := by
  have hkeys := cascade_scaling_keys hM gM v r bins derivnum
  obtain ⟨s, rfl⟩ : ∃ s, r = s + 1 := ⟨r - 1, by omega⟩
  simp only [Nat.add_sub_cancel] at hkeys
  refine ⟨?_, ?_, ?_⟩
  · have hlen : (cascade hM gM v (s + 1) bins derivnum false).result_map.length
        = (mapKeys (cascade hM gM v (s + 1) bins derivnum false).result_map).length :=
      (List.length_map _ _).symm
    rw [hlen, hkeys, keysUpTo_length]
  · rw [hkeys]; exact keysUpTo_nodup s
  · intro b hb
    rw [hkeys] at hb
    have h2 := length_le_of_mem_keysUpTo s b hb
    exact ⟨one_le_length_of_mem_keysUpTo s b hb, by omega⟩

/-- Witness for the amended C3 at `recursion_number = 2`. -/
theorem C3_scaling_key_count_witness :
    1 ≤ 2 ∧
    ((cascade [] [] [] 2 4 0 false).result_map.length = 2 ^ 2
    ∧ (mapKeys (cascade [] [] [] 2 4 0 false).result_map).Nodup
    ∧ ∀ b ∈ mapKeys (cascade [] [] [] 2 4 0 false).result_map,
        1 ≤ b.length ∧ b.length ≤ 2) :=
  ⟨by norm_num, C3_scaling_key_count [] [] [] 2 4 0 (by norm_num)⟩

/-- C3 counterexample: a scaling cascade with `recursion_number = 2`
returns the address `"0"` of length 1 ≠ 2 (keys of every length up to the
recursion number occur, not only full-length ones). -/
theorem C3_counterexample :
    mapKeys (cascade [] [] [] 2 4 0 false).result_map
      = [[false], [true], [false, true], [true, true]]
    ∧ ([false] : Bits) ∈ mapKeys (cascade [] [] [] 2 4 0 false).result_map
    ∧ ([false] : Bits).length ≠ 2 := by
  refine ⟨by decide, by decide, by decide⟩

/-- C2 (code-bug evaluation): in a wavelet cascade with
`recursion_number = 1`, matrices `M1 = [[3]]`, `G0 = [[5]]`, `G1 = [[7]]`
and seed `[1]`: the scaling map holds `G1·seed = [7]` at address `"1"` —
the seeded `M1·seed = [3]` was overwritten by part_001:188 — and the
wavelet map has no entry at `"1"` at all (only `G0·seed` at `"0"`).
Moreover at `recursion_number = 3` the wavelet map holds the length-2
address `"01"`: the wavelet matrices are applied at intermediate levels,
not only at the final one. -/
theorem C2_wavelet_seeding_bug :
    mapFind (cascade [[[(2:ℚ)]], [[3]]] [[[(5:ℚ)]], [[7]]] [1] 1 2 0 true).scaling_map
        [true] = some [7]
    ∧ mapFind (cascade [[[(2:ℚ)]], [[3]]] [[[(5:ℚ)]], [[7]]] [1] 1 2 0 true).wavelet_map
        [true] = none
    ∧ mapFind (cascade [[[(2:ℚ)]], [[3]]] [[[(5:ℚ)]], [[7]]] [1] 1 2 0 true).wavelet_map
        [false] = some [5]
    ∧ mult [[(3:ℚ)]] [1] = [3]
    ∧ ([7] : List ℚ) ≠ [3]
    ∧ (mapFind (cascade [[[(2:ℚ)]], [[3]]] [[[(5:ℚ)]], [[7]]] [1] 3 8 0 true).wavelet_map
        [false, true]).isSome = true := by
  refine ⟨?_, ?_, ?_, ?_, ?_, ?_⟩ <;>
    norm_num [cascade, cascadeLoop, cascadeLevel, cascadeLevelStep, cascadeInner,
      mapAssign, mapInsert, mapFind, mult, dotprod, scaleMat]

/-- C1 (code-bug evaluation): two grid builds violating the coverage
invariant.  With `order = 2`, requested `gridsize = 4`, `do_wavelet = true`
(any shape-correct coefficients and seed): the written cells are `[0, 1, 2]`
while the actual grid size is 6 — cell 3 is never written, because the
wavelet map is missing address `"1"` and the Grid Filler recomputes
`bins_per_int` as the (deficient) map size.  With `order = 2`, requested
`gridsize = 2`, `do_wavelet = false` (`recursion_number = 0`): the written
cells `[0, 2, 4, 1, 3, 5]` overrun the actual grid size 3. -/
theorem C1_coverage_violation :
    fillGridCells (buildValueMapModel [1,1,1,1] [1,1,1,1] [1,1,1] 2 4 true) = [0, 1, 2]
    ∧ actual_gridsize (maxsupport 2) 4 = 6
    ∧ (3:ℕ) ∉ fillGridCells (buildValueMapModel [1,1,1,1] [1,1,1,1] [1,1,1] 2 4 true)
    ∧ fillGridCells (buildValueMapModel [1,1,1,1] [1,1,1,1] [1,1,1] 2 2 false)
        = [0, 2, 4, 1, 3, 5]
    ∧ actual_gridsize (maxsupport 2) 2 = 3
    ∧ (5:ℕ) ∈ fillGridCells (buildValueMapModel [1,1,1,1] [1,1,1,1] [1,1,1] 2 2 false) := by
  refine ⟨rfl, rfl, by decide, rfl, rfl, by decide⟩

/-- C9 (amended): `cascade` scales the caller's matrices in place — after a
`derivnum = 1` invocation the shared `h_Matvec` state is doubled (and
`g_Matvec` too when a wavelet pass is requested); a `derivnum = 0`
invocation leaves both unchanged.  Correctness of the value/derivative
two-pass sequence relies on the value pass running first, exactly as the
source comment (part_001:171) assumes. -/
theorem C9_matrices_scaled_in_place (hM gM : List Mat) (v : List ℚ)
    (r bins : ℕ) (dw : Bool) :
    (cascade hM gM v r bins 1 dw).h_final = hM.map (scaleMat 2)
    ∧ (cascade hM gM v r bins 1 dw).g_final
        = (if dw then gM.map (scaleMat 2) else gM)
    ∧ (cascade hM gM v r bins 0 dw).h_final = hM
    ∧ (cascade hM gM v r bins 0 dw).g_final = gM := by
  cases dw <;> refine ⟨?_, ?_, ?_, ?_⟩ <;> simp [cascade]

/-- C9 counterexample: after a `derivnum = 1` cascade the caller's matrix
state is doubled, not unchanged. -/
theorem C9_counterexample :
    (cascade [[[(1:ℚ)]], [[1]]] [] [1] 1 2 1 false).h_final = [[[2]], [[2]]]
    ∧ ([[[(2:ℚ)]], [[2]]] : List Mat) ≠ [[[1]], [[1]]] := by
  constructor
  · norm_num [cascade, scaleMat]
  · norm_num
